import Mathlib

set_option maxRecDepth 10000

/- Shallow embedding of the Google-AutoComplete engine (process_data.py and
auto_complete.py).  Strings are modelled as lists of ASCII characters; the
affix index (a Python defaultdict from substring to list of line records) is
modelled as an association list.  All definitions are executable. -/

/-- Whitespace characters recognised by the embedded strip/split operations. -/
def isSp (c : Char) : Bool :=
  c.toNat == 32 || c.toNat == 9 || c.toNat == 10 || c.toNat == 13 ||
    c.toNat == 11 || c.toNat == 12

/-- ASCII uppercase letter A-Z. -/
def isUpAl (c : Char) : Bool := 65 ≤ c.toNat && c.toNat ≤ 90

/-- Lowercase ASCII letter: the character class [a-z] of the token pattern. -/
def isLowAl (c : Char) : Bool := 97 ≤ c.toNat && c.toNat ≤ 122

/-- ASCII digit 0-9. -/
def isDig (c : Char) : Bool := 48 ≤ c.toNat && c.toNat ≤ 57

/-- ASCII lowercasing of one character, as Python str.lower on ASCII input. -/
def lowerChar (c : Char) : Char :=
  if isUpAl c then Char.ofNat (c.toNat + 32) else c

/-- ASCII lowercasing of a string, as Python str.lower on ASCII input. -/
def lowerStr (s : List Char) : List Char := s.map lowerChar

/-- Regex word characters, deciding word boundaries: letters, digits, underscore
(code 95). -/
def wordChar (c : Char) : Bool :=
  isUpAl c || isLowAl c || isDig c || c.toNat == 95

/-- Python str.strip: drop leading and trailing whitespace. -/
def pyStrip (s : List Char) : List Char :=
  ((s.dropWhile isSp).reverse.dropWhile isSp).reverse

/-- Maximal runs of characters satisfying p; separator characters are dropped.
The second argument accumulates the current run in reverse. -/
def runsAux (p : Char → Bool) : List Char → List Char → List (List Char)
  | [], cur => if cur.isEmpty then [] else [cur.reverse]
  | c :: cs, cur =>
    if p c then runsAux p cs (c :: cur)
    else if cur.isEmpty then runsAux p cs []
    else cur.reverse :: runsAux p cs []

/-- Embedding of re.findall of the word pattern (lowercase-letter runs delimited
by word boundaries): the maximal runs of word characters that consist entirely
of lowercase letters.  A letter run adjacent to a digit or underscore is not
delimited by a word boundary and therefore yields no match. -/
def findWords (s : List Char) : List (List Char) :=
  (runsAux wordChar s []).filter (fun r => r.all isLowAl)

/-- Python str.split with no separator: maximal runs of non-whitespace. -/
def pySplitWs (s : List Char) : List (List Char) :=
  runsAux (fun c => !(isSp c)) s []

/-- Join a list of words with single spaces. -/
def joinSp (ws : List (List Char)) : List Char := List.intercalate [' '] ws

/-- Convenience conversion from a string literal to the character-list model. -/
def chars (s : String) : List Char := s.toList

/-- A Line Record: the raw line text, its 1-based line number, and source id. -/
structure LineRec where
  text : List Char
  lineno : Nat
  source : List Char
deriving DecidableEq, Repr

/-- An autocomplete result, as built by create_auto_complete. -/
structure ACData where
  completed_sentence : List Char
  source_text : List Char
  offset : Nat
  score : Int
deriving DecidableEq, Repr

/-- The affix index: association list from substring key to its record list. -/
abbrev Idx := List (List Char × List LineRec)

/-- Python `key in dict`. -/
def idxMem : Idx → List Char → Bool
  | [], _ => false
  | p :: rest, k => if p.1 = k then true else idxMem rest k

/-- Python `dict[key]` on the defaultdict (missing keys read as []). -/
def idxGet : Idx → List Char → List LineRec
  | [], _ => []
  | p :: rest, k => if p.1 = k then p.2 else idxGet rest k

/-- Python `dict[key].append(r)` on the defaultdict. -/
def idxAppend : Idx → List Char → LineRec → Idx
  | [], k, r => [(k, [r])]
  | p :: rest, k, r =>
    if p.1 = k then (p.1, p.2 ++ [r]) :: rest else p :: idxAppend rest k r

/-- Insertion-ordered set insertion, modelling Python set.add. -/
def setAdd {α : Type} [DecidableEq α] (s : List α) (x : α) : List α :=
  if x ∈ s then s else s ++ [x]

/-- Insertion-ordered deduplication, modelling Python set(iterable). -/
def dedupL {α : Type} [DecidableEq α] (l : List α) : List α :=
  l.foldl setAdd []

/- ===== process_data.py ===== -/

/-- ProcessData.get_all_substrings: for each word, the prefixes and suffixes of
length 2 up to the word length, collected into an insertion-ordered set. -/
def get_all_substrings (words : List (List Char)) : List (List Char) :=
  words.foldl
    (fun s w =>
      (List.range' 2 (w.length - 1)).foldl
        (fun s2 j => setAdd (setAdd s2 (w.take j)) (w.drop (w.length - j))) s)
    []

/-- ProcessData.remove_punctuation: lowercase, keep only the token-pattern
words, join with single spaces. -/
def remove_punctuation (line : List Char) : List Char :=
  joinSp (findWords (lowerStr line))

/-- Python `filename or "Unknown"`. -/
def pyFname (fn : List Char) : List Char :=
  if fn.isEmpty then "Unknown".toList else fn

/-- One iteration of ProcessData.process: clean the line and append its record
under every generated substring of the cleaned words. -/
def processLine (fn l : List Char) (i : Nat) (d : Idx) : Idx :=
  let clean := remove_punctuation (pyStrip l)
  if clean.isEmpty then d
  else
    (get_all_substrings (pySplitWs clean)).foldl
      (fun dd sub => idxAppend dd sub (LineRec.mk l (i + 1) (pyFname fn))) d

/-- The loop of ProcessData.process over the enumerated lines. -/
def processFrom (fn : List Char) : List (List Char) → Nat → Idx → Idx
  | [], _, d => d
  | l :: rest, i, d => processFrom fn rest (i + 1) (processLine fn l i d)

/-- ProcessData.process: accumulate all lines of one file into the index. -/
def process (d : Idx) (lines : List (List Char)) (fn : List Char) : Idx :=
  processFrom fn lines 0 d

/- ===== auto_complete.py ===== -/

/-- string.ascii_lowercase. -/
def alphabet : List Char := "abcdefghijklmnopqrstuvwxyz".toList

/-- Python range(n, -1, -1): the positions n, n-1, ..., 0. -/
def countdown (n : Nat) : List Nat := (List.range (n + 1)).reverse

/-- AutoComplete.create_auto_complete. -/
def create_auto_complete (l : List LineRec) : List ACData :=
  l.map (fun r => ACData.mk r.text r.source r.lineno 0)

/-- The deletion penalty max(10 - 2*i, 2) of AutoComplete.delete_char. -/
def delPenalty (i : Nat) : Int := max (10 - 2 * (i : Int)) 2

/-- The scan of AutoComplete.delete_char, with its cap of five accepted
candidates (the break leaves the only loop). -/
def delLoop (ht : Idx) (s : List Char) (score : Int) :
    List Nat → List (List Char × Int) → List (List Char × Int)
  | [], acc => acc
  | i :: rest, acc =>
    let ns := s.take i ++ s.drop (i + 1)
    if idxMem ht ns then
      let acc2 := acc ++ [(ns, score - delPenalty i)]
      if acc2.length == 5 then acc2 else delLoop ht s score rest acc2
    else delLoop ht s score rest acc

/-- AutoComplete.delete_char. -/
def delete_char (ht : Idx) (s : List Char) : List (List Char × Int) :=
  delLoop ht s (((s.length : Int) - 1) * 2) (countdown s.length) []

/-- AutoComplete.addition_score: penalties [10, 8, 6, 4] for the first four
insertion positions, 2 afterwards. -/
def addition_score (index : Nat) (max_score : Int) : Int :=
  max_score - (([10, 8, 6, 4] : List Int).getD index 2)

/-- AutoComplete.add_char: try every letter at every position, uncapped. -/
def add_char (ht : Idx) (s : List Char) : List (List Char × Int) :=
  (alphabet.map (fun c =>
    (countdown s.length).filterMap (fun i =>
      let w := s.take i ++ c :: s.drop i
      if idxMem ht w then some (w, addition_score i (2 * (s.length : Int)))
      else none))).flatten

/-- The mismatch-counting loop of AutoComplete.has_multiple_mismatches. -/
def hmmAux (ht : Idx) : List (List Char) → Nat → Bool
  | [], _ => false
  | w :: ws, m =>
    if idxMem ht w then hmmAux ht ws m
    else if 1 < m + 1 then true else hmmAux ht ws (m + 1)

/-- AutoComplete.has_multiple_mismatches. -/
def has_multiple_mismatches (ht : Idx) (sub : List Char) : Bool :=
  hmmAux ht (pySplitWs sub) 0

/-- The search loop of AutoComplete.find_mismatched_word_and_index. -/
def fmwAux (ht : Idx) : List (List Char) → Nat → Option (List Char × Nat)
  | [], _ => none
  | w :: ws, i => if idxMem ht w then fmwAux ht ws (i + 1) else some (w, i)

/-- AutoComplete.find_mismatched_word_and_index: the first word of the split
subtext that is not an index key, with its position in the split list. -/
def find_mismatched_word_and_index (ht : Idx) (sub : List Char) :
    Option (List Char × Nat) :=
  fmwAux ht (pySplitWs sub) 0

/-- Python single-character indexing with negative-index wraparound. -/
def pyGet (s : List Char) (i : Int) : Char :=
  if i < 0 then s.getD ((s.length : Int) + i).toNat ' ' else s.getD i.toNat ' '

/-- Python slice s[:j] with negative-index wraparound. -/
def pyTo (s : List Char) (j : Int) : List Char :=
  s.take (if j < 0 then ((s.length : Int) + j).toNat else j.toNat)

/-- Python slice s[i:] with negative-index wraparound. -/
def pyFrom (s : List Char) (i : Int) : List Char :=
  s.drop (if i < 0 then ((s.length : Int) + i).toNat else i.toNat)

/-- The alphabet scan of generate_possible_replacements at one position.  The
break fires only when the accumulated list reaches exactly five entries, and
it leaves only this inner loop. -/
def genInner (ht : Idx) (score : Int) (sub : List Char) (pos : Int) :
    List Char → List (List Char × Int) → List (List Char × Int)
  | [], acc => acc
  | c :: cs, acc =>
    if c == pyGet sub pos then genInner ht score sub pos cs acc
    else
      let nw := pyTo sub pos ++ c :: pyFrom sub (pos + 1)
      if idxMem ht nw then
        let acc2 := acc ++ [(nw, score - (if 3 < pos then 1 else 5 - pos))]
        if acc2.length == 5 then acc2 else genInner ht score sub pos cs acc2
      else genInner ht score sub pos cs acc

/-- The position scan of generate_possible_replacements: i runs from the
mismatched word's length down to 0, the substituted absolute position is
end_word_index - i. -/
def genOuter (ht : Idx) (score : Int) (sub : List Char) (endIdx : Int) :
    List Nat → List (List Char × Int) → List (List Char × Int)
  | [], acc => acc
  | i :: rest, acc =>
    genOuter ht score sub endIdx rest
      (genInner ht score sub (endIdx - (i : Int)) alphabet acc)

/-- AutoComplete.generate_possible_replacements. -/
def generate_possible_replacements (ht : Idx) (mw sub : List Char)
    (endIdx : Int) : List (List Char × Int) :=
  genOuter ht (((sub.length : Int) - 1) * 2) sub endIdx (countdown mw.length) []

/-- AutoComplete.replace_char.  Returns none on the path where Python would
raise: unpacking the None returned by find_mismatched_word_and_index. -/
def replace_char (ht : Idx) (sub : List Char) :
    Option (List (List Char × Int)) :=
  if has_multiple_mismatches ht sub then some []
  else
    match find_mismatched_word_and_index ht sub with
    | none => none
    | some (mw, si) =>
      some (generate_possible_replacements ht mw sub
        ((si : Int) + (mw.length : Int) - 1))

/-- The selection scan of AutoComplete.get_best_completions: keep the first
candidate whose score strictly exceeds the running maximum (initially -inf,
modelled as none). -/
def pickBestAux : List (List Char × Int) → List Char → Option Int → List Char
  | [], found, _ => found
  | (w, s) :: rest, _, none => pickBestAux rest w (some s)
  | (w, s) :: rest, found, some h =>
    if h < s then pickBestAux rest w (some s) else pickBestAux rest found (some h)

/-- AutoComplete.get_best_completions: pool the three generators in the order
substitution, deletion, insertion and pick the best-scoring candidate.  none
models the exception propagated out of replace_char. -/
def get_best_completions (ht : Idx) (sub : List Char) : Option (List Char) :=
  match replace_char ht sub with
  | none => none
  | some rl =>
    some (pickBestAux (rl ++ delete_char ht sub ++ add_char ht sub) [] none)

/-- Python substring test `a in b` via an explicit scan. -/
def listPre : List Char → List Char → Bool
  | [], _ => true
  | _ :: _, [] => false
  | a :: as, b :: bs => a == b && listPre as bs

/-- Python substring test `needle in hay`. -/
def isSubstr (n h : List Char) : Bool :=
  (List.range (h.length + 1)).any (fun i => listPre n (h.drop i))

/-- The while-loop of check_if_input_in_line: some true when the input words
are exhausted, some false on a content mismatch (which returns from the whole
function), none when the line words run out first (the outer loop continues). -/
def seqRun : List (List Char) → List (List Char) → Option Bool
  | [], _ => some true
  | _ :: _, [] => none
  | u :: us, l :: ls => if isSubstr u l then seqRun us ls else some false

/-- The outer loop of check_if_input_in_line over the line-word suffixes. -/
def cilAux (uws : List (List Char)) : List (List Char) → Bool
  | [] => false
  | w :: rest =>
    if isSubstr (uws.headD []) w then
      match seqRun uws (w :: rest) with
      | some b => b
      | none => cilAux uws rest
    else cilAux uws rest

/-- AutoComplete.check_if_input_in_line. -/
def check_if_input_in_line (uws lws : List (List Char)) : Bool :=
  cilAux uws lws

/-- One step of the candidate-line accumulation of get_best_k_completion: the
running set is replaced by the token's record set whenever it is empty, and
intersected with it otherwise. -/
def interStep (ht : Idx) (lines : List LineRec) (w : List Char) : List LineRec :=
  if lines.length == 0 then dedupL (idxGet ht w)
  else lines.filter (fun r => decide (r ∈ idxGet ht w))

/-- The per-token resolution loop of get_best_k_completion.  none models a
propagated exception; some none models the early `return []`; some (some _)
carries the candidate records and the resolved tokens. -/
def resolveLoop (ht : Idx) :
    List (List Char) → List LineRec → List (List Char) →
    Option (Option (List LineRec × List (List Char)))
  | [], lines, cs => some (some (lines, cs))
  | w :: ws, lines, cs =>
    if idxMem ht w then resolveLoop ht ws (interStep ht lines w) (cs ++ [w])
    else
      match get_best_completions ht w with
      | none => none
      | some nw =>
        if nw.isEmpty then some none
        else resolveLoop ht ws (interStep ht lines nw) (cs ++ [nw])

/-- Query tokenization of get_best_k_completion (and the re-tokenization of a
candidate line in its ordered-occurrence filter). -/
def uwords (q : List Char) : List (List Char) :=
  findWords (pyStrip (lowerStr q))

/-- The ordered-occurrence filter stage of get_best_k_completion: applied only
when the query has more than one word. -/
def finalLines (uws cs : List (List Char)) (L : List LineRec) :
    List LineRec :=
  if 1 < uws.length then
    L.filter (fun r => check_if_input_in_line cs (uwords r.text))
  else L

/-- AutoComplete.get_best_k_completion.  The uniform random sample drawn when
the candidate count exceeds k is modelled by the sample parameter. -/
def get_best_k_completion (ht : Idx)
    (sample : List LineRec → Nat → List LineRec) (ui : List Char) (k : Nat) :
    Option (List ACData) :=
  match resolveLoop ht (uwords ui) [] [] with
  | none => none
  | some none => some []
  | some (some (L, cs)) =>
    let final := finalLines (uwords ui) cs L
    some (create_auto_complete
      (if k < final.length then sample final k else final))

/- ===== auxiliary notions used by the claims ===== -/

/-- r is t with exactly one character deleted. -/
def isDel1 (r t : List Char) : Bool :=
  (List.range t.length).any (fun i => r == t.take i ++ t.drop (i + 1))

/-- r is t with exactly one character substituted. -/
def isSub1 (r t : List Char) : Bool :=
  r.length == t.length && (List.zip r t).countP (fun p => p.1 != p.2) == 1

/-- r differs from t by exactly one character insertion, deletion, or
substitution (in particular r is never t itself). -/
def isOneEdit (r t : List Char) : Bool :=
  isDel1 r t || isDel1 t r || isSub1 r t

/-- Modelled from the spec: the cleaning rule as the specification words it,
"extract all maximal runs of lowercase alphabetic characters after
lowercasing", with every non-letter acting as a separator. -/
def spec_alpha_runs (s : List Char) : List (List Char) :=
  runsAux isLowAl s []

/-- A deterministic instantiation of the sample parameter: take the first n. -/
def takeSample (l : List LineRec) (n : Nat) : List LineRec := l.take n

/- ===== concrete corpora for the evaluation theorems ===== -/

/-- Index over the one-line corpus "axabc": "axab" is a key (prefix at j = 4)
while "ab" is not a key. -/
def htC1 : Idx := process [] [chars ("axabc")] (chars ("f"))

/-- Index whose keys include aaab, acab, adab, aeab, afab, cb, aa, ac, ad, ae,
af but not ab. -/
def htC3 : Idx :=
  process [] [chars ("aaabq acabq adabq aeabq afabq cbq")] (chars ("f"))

/-- Three-line corpus: "bc" occurs only in line 1, "de" only in line 2, and
line 3 contains bc, de as interior (non-affix) substrings. -/
def htC2 : Idx :=
  process [] [chars ("bcz"), chars ("dez"), chars ("xbcq ydeq zfgq")]
    (chars ("f"))

/-- Index over the one-line corpus "ab". -/
def htW : Idx := process [] [chars ("ab")] (chars ("f"))

/-- Index over the one-line corpus "ab cd". -/
def htW2 : Idx := process [] [chars ("ab cd")] (chars ("f"))

/- ===== theorems ===== -/

/-- C1: False on the code.  With the index built from the single corpus line
"axabc", the token "ab" is absent from the index, yet the substitution
generator accepts the candidate "axab", which differs from "ab" by two
insertions, not by one edit: the scan position i = len(token) addresses the
subtext at absolute position -1, and Python negative indexing turns the
intended substitution into subtext[:-1] + c + subtext. -/
theorem c1_eval :
    replace_char htC1 (chars ("ab")) =
        some [(chars ("axab"), -4), (chars ("ax"), -2)] ∧
      isOneEdit (chars ("axab")) (chars ("ab")) = false ∧
      idxMem htC1 (chars ("ab")) = false := by decide

/-- C3: False on the code.  With the index built from the corpus line
"aaabq acabq adabq aeabq afabq cbq", the subtext "ab" is absent from the
index and the substitution generator returns eleven accepted candidates: the
five-candidate break exits only the inner alphabet loop, and once the count
has passed five it never fires again. -/
theorem c3_eval :
    ((replace_char htC3 (chars ("ab"))).getD []).length = 11 ∧
      idxMem htC3 (chars ("ab")) = false := by decide

/-- C2 counterexample.  In the corpus {"bcz", "dez", "xbcq ydeq zfgq"} the
query "bc de zf" resolves every token verbatim, the running set becomes empty
after intersecting the records of "bc" and "de", and the empty-set test then
re-initializes it from the records of "zf": the query returns line 3 even
though line 3 is not in the index entry of the resolved token "bc", so the
candidate set is not the intersection of all resolved tokens' record lists. -/
theorem c2_cex :
    get_best_k_completion htC2 takeSample (chars ("bc de zf")) 5 =
        some [ACData.mk (chars ("xbcq ydeq zfgq")) (chars ("f")) 3 0] ∧
      idxMem htC2 (chars ("bc")) = true ∧
      LineRec.mk (chars ("xbcq ydeq zfgq")) 3 (chars ("f")) ∉
        idxGet htC2 (chars ("bc")) := by decide

/-- C4 counterexample.  Cleaning "abc1def" yields the empty string, not the
words "abc" and "def": digits are word characters for the regex boundary, so
a letter run adjacent to a digit matches no token at all. -/
theorem c4_cex :
    remove_punctuation (chars ("abc1def")) = [] ∧
      spec_alpha_runs (lowerStr (chars ("abc1def"))) =
        [chars ("abc"), chars ("def")] ∧
      chars ("abc") ∉ pySplitWs (remove_punctuation (chars ("abc1def"))) := by
  decide

/-- C8: deletion scoring is monotone in position: for a fixed token length n,
the score (n - 1) * 2 - delPenalty i assigned by delete_char at an earlier
deletion position never exceeds the score at a later position. -/
theorem c8_deletion_monotone (n i j : Nat) (h : i < j) :
    ((n : Int) - 1) * 2 - delPenalty i ≤ ((n : Int) - 1) * 2 - delPenalty j := by
  have hp : delPenalty j ≤ delPenalty i := by
    unfold delPenalty
    have hij : (i : Int) ≤ (j : Int) := by exact_mod_cast Nat.le_of_lt h
    exact max_le_max (by omega) le_rfl
  omega

/-- Witness for C8 at n = 5, i = 1, j = 3. -/
theorem c8_deletion_monotone_witness :
    (1 : Nat) < 3 ∧
      (((5 : Nat) : Int) - 1) * 2 - delPenalty 1 ≤
        (((5 : Nat) : Int) - 1) * 2 - delPenalty 3 :=
  ⟨by decide, c8_deletion_monotone 5 1 3 (by decide)⟩

lemma lowerChar_toNat_of_up (c : Char) (h : isUpAl c = true) :
    (lowerChar c).toNat = c.toNat + 32 := by
  simp only [isUpAl, Bool.and_eq_true, decide_eq_true_eq] at h
  unfold lowerChar
  rw [if_pos (by simp [isUpAl]; omega)]
  unfold Char.ofNat
  rw [dif_pos (Or.inl (by omega))]
  rfl

lemma lowerChar_eq_of_not_up (c : Char) (h : isUpAl c = false) :
    lowerChar c = c := by
  unfold lowerChar
  rw [if_neg (by simp [h])]

lemma wordChar_eq_isLowAl (c : Char) (hd : isDig c = false)
    (hu : c.toNat ≠ 95) : wordChar (lowerChar c) = isLowAl (lowerChar c) := by
  by_cases hup : isUpAl c = true
  · have ht := lowerChar_toNat_of_up c hup
    simp only [isUpAl, Bool.and_eq_true, decide_eq_true_eq] at hup
    have hlo : isLowAl (lowerChar c) = true := by
      simp [isLowAl, ht]; omega
    simp [wordChar, hlo]
  · have hup2 : isUpAl c = false := by simpa using hup
    rw [lowerChar_eq_of_not_up c hup2]
    simp [wordChar, hup2, hd, hu]

lemma runsAux_ne (p : Char → Bool) (l : List Char) :
    ∀ acc r, r ∈ runsAux p l acc → r ≠ [] := by
  induction l with
  | nil =>
    intro acc r hr
    by_cases h : acc.isEmpty = true
    · simp [runsAux, h] at hr
    · have h2 : acc.isEmpty = false := by simpa using h
      simp [runsAux, h2] at hr
      subst hr
      simp only [ne_eq, List.reverse_eq_nil_iff]
      intro h0
      rw [h0] at h2
      simp at h2
  | cons c cs ih =>
    intro acc r hr
    by_cases hc : p c = true
    · simp only [runsAux, hc, if_true] at hr
      exact ih _ _ hr
    · have hc2 : p c = false := by simpa using hc
      by_cases ha : acc.isEmpty = true
      · simp only [runsAux, hc2, Bool.false_eq_true, if_false, ha, if_true] at hr
        exact ih _ _ hr
      · have ha2 : acc.isEmpty = false := by simpa using ha
        simp only [runsAux, hc2, Bool.false_eq_true, if_false, ha2,
          List.mem_cons] at hr
        rcases hr with hr | hr
        · subst hr
          simp only [ne_eq, List.reverse_eq_nil_iff]
          intro h0
          rw [h0] at ha2
          simp at ha2
        · exact ih _ _ hr

lemma runsAux_sat (p : Char → Bool) (l : List Char) :
    ∀ acc, (∀ c ∈ acc, p c = true) →
      ∀ r ∈ runsAux p l acc, ∀ c ∈ r, p c = true := by
  induction l with
  | nil =>
    intro acc hacc r hr c hc
    by_cases h : acc.isEmpty = true
    · simp [runsAux, h] at hr
    · have h2 : acc.isEmpty = false := by simpa using h
      simp [runsAux, h2] at hr
      subst hr
      exact hacc c (by simpa using hc)
  | cons a cs ih =>
    intro acc hacc r hr c hc
    by_cases hc1 : p a = true
    · simp only [runsAux, hc1, if_true] at hr
      refine ih (a :: acc) ?_ r hr c hc
      intro x hx
      rcases List.mem_cons.mp hx with hx | hx
      · subst hx; exact hc1
      · exact hacc x hx
    · have hc2 : p a = false := by simpa using hc1
      by_cases ha : acc.isEmpty = true
      · simp only [runsAux, hc2, Bool.false_eq_true, if_false, ha, if_true] at hr
        exact ih [] (by simp) r hr c hc
      · have ha2 : acc.isEmpty = false := by simpa using ha
        simp only [runsAux, hc2, Bool.false_eq_true, if_false, ha2,
          List.mem_cons] at hr
        rcases hr with hr | hr
        · subst hr
          exact hacc c (by simpa using hc)
        · exact ih [] (by simp) r hr c hc

lemma runsAux_congr (p q : Char → Bool) (l : List Char)
    (h : ∀ c ∈ l, p c = q c) : ∀ acc, runsAux p l acc = runsAux q l acc := by
  induction l with
  | nil => intro acc; rfl
  | cons c cs ih =>
    intro acc
    have hc : p c = q c := h c (List.mem_cons_self c cs)
    have htl : ∀ x ∈ cs, p x = q x := fun x hx =>
      h x (List.mem_cons_of_mem c hx)
    cases hq : q c with
    | true =>
      simp only [runsAux, hc, hq, if_true]
      exact ih htl (c :: acc)
    | false =>
      simp only [runsAux, hc, hq, Bool.false_eq_true, if_false]
      rw [ih htl []]

lemma runsAux_single (p : Char → Bool) (l : List Char) :
    ∀ acc, (∀ c ∈ l, p c = true) → (acc.isEmpty = false ∨ l ≠ []) →
      runsAux p l acc = [acc.reverse ++ l] := by
  induction l with
  | nil =>
    intro acc _ hor
    rcases hor with hor | hor
    · simp [runsAux, hor]
    · simp at hor
  | cons c cs ih =>
    intro acc hall _
    have hc : p c = true := hall c (List.mem_cons_self c cs)
    have htl : ∀ x ∈ cs, p x = true := fun x hx =>
      hall x (List.mem_cons_of_mem c hx)
    simp only [runsAux, hc, if_true]
    rw [ih (c :: acc) htl (Or.inl (by simp))]
    simp

lemma findWords_wf (s : List Char) :
    ∀ w ∈ findWords s, w ≠ [] ∧ w.all isLowAl = true := by
  intro w hw
  unfold findWords at hw
  have h2 := List.mem_filter.mp hw
  exact ⟨runsAux_ne wordChar s [] w h2.1, h2.2⟩

lemma lowAl_not_sp (c : Char) (h : isLowAl c = true) : isSp c = false := by
  simp only [isLowAl, Bool.and_eq_true, decide_eq_true_eq] at h
  simp [isSp]
  omega

lemma pySplitWs_single (w : List Char) (hne : w ≠ [])
    (hall : w.all isLowAl = true) : pySplitWs w = [w] := by
  unfold pySplitWs
  rw [runsAux_single _ w [] ?_ (Or.inr hne)]
  · simp
  · intro c hc
    have := lowAl_not_sp c (List.all_eq_true.mp hall c hc)
    simp [this]

/-- C4 amended: on a line containing no digit and no underscore, cleaning
yields exactly the maximal runs of lowercase alphabetic characters of the
lowercased input, joined by single spaces (the rule the spec states); on lines
with digits or underscores, letter runs adjacent to them are dropped instead
of being split off, as the counterexample shows. -/
theorem c4_clean_amended (line : List Char)
    (h : ∀ c ∈ line, isDig c = false ∧ c.toNat ≠ 95) :
    remove_punctuation line = joinSp (spec_alpha_runs (lowerStr line)) := by
  unfold remove_punctuation spec_alpha_runs findWords
  have hpt : ∀ x ∈ lowerStr line, wordChar x = isLowAl x := by
    intro x hx
    rcases List.mem_map.mp hx with ⟨c, hc, rfl⟩
    exact wordChar_eq_isLowAl c (h c hc).1 (h c hc).2
  rw [runsAux_congr wordChar isLowAl (lowerStr line) hpt []]
  congr 1
  apply List.filter_eq_self.mpr
  intro r hr
  exact List.all_eq_true.mpr (runsAux_sat isLowAl (lowerStr line) [] (by simp) r hr)

/-- Witness for the amended C4 on the digit-free line "Abc, def!". -/
theorem c4_clean_amended_witness :
    remove_punctuation (chars ("Abc, def!")) =
      joinSp (spec_alpha_runs (lowerStr (chars ("Abc, def!")))) :=
  c4_clean_amended (chars ("Abc, def!")) (by decide)

lemma hmmAux_all_mem (ht : Idx) (ts : List (List Char))
    (hall : ∀ t ∈ ts, idxMem ht t = true) : ∀ m, hmmAux ht ts m = false := by
  induction ts with
  | nil => intro m; rfl
  | cons t rest ih =>
    intro m
    have hm := hall t (List.mem_cons_self t rest)
    simp only [hmmAux, hm, if_true]
    exact ih (fun x hx => hall x (List.mem_cons_of_mem t hx)) m

lemma fmwAux_all_mem (ht : Idx) (ts : List (List Char))
    (hall : ∀ t ∈ ts, idxMem ht t = true) : ∀ i, fmwAux ht ts i = none := by
  induction ts with
  | nil => intro i; rfl
  | cons t rest ih =>
    intro i
    have hm := hall t (List.mem_cons_self t rest)
    simp only [fmwAux, hm, if_true]
    exact ih (fun x hx => hall x (List.mem_cons_of_mem t hx)) (i + 1)

lemma replace_char_none_of_all_mem (ht : Idx) (sub : List Char)
    (hall : ∀ t ∈ pySplitWs sub, idxMem ht t = true) :
    replace_char ht sub = none := by
  have h1 : has_multiple_mismatches ht sub = false :=
    hmmAux_all_mem ht (pySplitWs sub) hall 0
  have h2 : find_mismatched_word_and_index ht sub = none :=
    fmwAux_all_mem ht (pySplitWs sub) hall 0
  simp [replace_char, h1, h2]

lemma replace_char_some_single (ht : Idx) (w : List Char) (hne : w ≠ [])
    (hall : w.all isLowAl = true) (hmem : idxMem ht w = false) :
    replace_char ht w =
      some (generate_possible_replacements ht w w
        (((0 : Nat) : Int) + (w.length : Int) - 1)) := by
  have hsplit : pySplitWs w = [w] := pySplitWs_single w hne hall
  have h1 : has_multiple_mismatches ht w = false := by
    unfold has_multiple_mismatches
    rw [hsplit]
    simp [hmmAux, hmem]
  have h2 : find_mismatched_word_and_index ht w = some (w, 0) := by
    unfold find_mismatched_word_and_index
    rw [hsplit]
    simp [fmwAux, hmem]
  simp [replace_char, h1, h2]

/-- C10: replace_char's unpacking of find_mismatched_word_and_index fails
exactly when every whitespace-delimited token of the subtext is an index key
(modelled as the none result); and on the engine's actual call path, a single
nonempty all-letter token absent from the index, the failure branch is
unreachable. -/
theorem c10_replace_char_guard :
    (∀ (ht : Idx) (sub : List Char),
        (∀ t ∈ pySplitWs sub, idxMem ht t = true) →
        replace_char ht sub = none) ∧
      (∀ (ht : Idx) (w : List Char), w ≠ [] → w.all isLowAl = true →
        idxMem ht w = false → (replace_char ht w).isSome = true) := by
  constructor
  · exact replace_char_none_of_all_mem
  · intro ht w hne hall hmem
    rw [replace_char_some_single ht w hne hall hmem]
    rfl

/-- Witness for C10: with "ab" the only index key, replace_char on "ab"
crashes; with an empty index, replace_char on "ab" returns a value. -/
theorem c10_replace_char_guard_witness :
    replace_char [((chars ("ab")), [])] (chars ("ab")) = none ∧
      (replace_char ([] : Idx) (chars ("ab"))).isSome = true :=
  ⟨c10_replace_char_guard.1 [((chars ("ab")), [])] (chars ("ab")) (by decide),
   c10_replace_char_guard.2 [] (chars ("ab")) (by decide) (by decide)
     (by decide)⟩

lemma gbc_isSome (ht : Idx) (w : List Char) (hne : w ≠ [])
    (hall : w.all isLowAl = true) (hmem : idxMem ht w = false) :
    (get_best_completions ht w).isSome = true := by
  unfold get_best_completions
  rw [replace_char_some_single ht w hne hall hmem]
  rfl

lemma resolveLoop_abort (ht : Idx) (w : List Char)
    (hmem : idxMem ht w = false)
    (hgbc : get_best_completions ht w = some []) :
    ∀ (ws : List (List Char)) (S : List LineRec) (cs : List (List Char)),
      (∀ x ∈ ws, x ≠ [] ∧ x.all isLowAl = true) → w ∈ ws →
      resolveLoop ht ws S cs = some none := by
  intro ws
  induction ws with
  | nil => intro S cs _ hw; simp at hw
  | cons w0 rest ih =>
    intro S cs hwf hw
    by_cases hm : idxMem ht w0 = true
    · have hw2 : w ∈ rest := by
        rcases List.mem_cons.mp hw with rfl | h
        · rw [hm] at hmem; cases hmem
        · exact h
      simp only [resolveLoop, hm, if_true]
      exact ih _ _ (fun x hx => hwf x (List.mem_cons_of_mem _ hx)) hw2
    · have hm2 : idxMem ht w0 = false := by simpa using hm
      have hwf0 := hwf w0 (List.mem_cons_self w0 rest)
      have hsome := gbc_isSome ht w0 hwf0.1 hwf0.2 hm2
      cases hg : get_best_completions ht w0 with
      | none => rw [hg] at hsome; simp at hsome
      | some nw =>
        by_cases hnw : nw.isEmpty = true
        · simp only [resolveLoop, hm2, Bool.false_eq_true, if_false, hg, hnw,
            if_true]
        · have hnw2 : nw.isEmpty = false := by simpa using hnw
          have hw2 : w ∈ rest := by
            rcases List.mem_cons.mp hw with rfl | h
            · rw [hgbc] at hg
              injection hg with hg2
              rw [← hg2] at hnw2
              simp at hnw2
            · exact h
          simp only [resolveLoop, hm2, Bool.false_eq_true, if_false, hg, hnw2]
          exact ih _ _ (fun x hx => hwf x (List.mem_cons_of_mem _ hx)) hw2

/-- C9: if some query token is absent from the index and the pooled correction
generators accept no candidate (get_best_completions returns the empty
string), the whole query returns the empty result list, with no error
outcome. -/
theorem c9_unresolvable_empty (ht : Idx)
    (sample : List LineRec → Nat → List LineRec) (q : List Char) (k : Nat)
    (w : List Char) (hw : w ∈ uwords q) (hmem : idxMem ht w = false)
    (hgbc : get_best_completions ht w = some []) :
    get_best_k_completion ht sample q k = some [] := by
  have habort : resolveLoop ht (uwords q) [] [] = some none :=
    resolveLoop_abort ht w hmem hgbc (uwords q) [] []
      (fun x hx => findWords_wf (pyStrip (lowerStr q)) x hx) hw
  simp [get_best_k_completion, habort]

/-- Witness for C9: in the corpus {"ab"}, the token "xq" has no accepted
correction, and the query "xq" returns the empty list. -/
theorem c9_unresolvable_empty_witness :
    get_best_k_completion htW takeSample (chars ("xq")) 5 = some [] :=
  c9_unresolvable_empty htW takeSample (chars ("xq")) 5 (chars ("xq"))
    (by decide) (by decide) (by decide)

lemma idxMem_idxAppend_self (d : Idx) (k : List Char) (r : LineRec) :
    idxMem (idxAppend d k r) k = true := by
  induction d with
  | nil => simp [idxAppend, idxMem]
  | cons p rest ih =>
    by_cases h : p.1 = k
    · simp [idxAppend, h, idxMem]
    · simp [idxAppend, h, idxMem, ih]

lemma idxMem_idxAppend_mono (d : Idx) (k k2 : List Char) (r : LineRec)
    (h : idxMem d k = true) : idxMem (idxAppend d k2 r) k = true := by
  induction d with
  | nil => simp [idxMem] at h
  | cons p rest ih =>
    by_cases h1 : p.1 = k2
    · simp only [idxMem] at h
      rw [h1] at h
      simp only [idxAppend, h1, if_true]
      simp only [idxMem]
      exact h
    · simp only [idxAppend, h1, if_false]
      simp only [idxMem] at h ⊢
      by_cases h2 : p.1 = k
      · simp [h2]
      · simp only [h2, if_false] at h ⊢
        exact ih h

lemma idxGet_idxAppend_self (d : Idx) (k : List Char) (r : LineRec) :
    idxGet (idxAppend d k r) k = idxGet d k ++ [r] := by
  induction d with
  | nil => simp [idxAppend, idxGet]
  | cons p rest ih =>
    by_cases h : p.1 = k
    · simp [idxAppend, h, idxGet]
    · simp [idxAppend, h, idxGet, ih]

lemma idxGet_idxAppend_other (d : Idx) (k k2 : List Char) (r : LineRec)
    (h : k2 ≠ k) : idxGet (idxAppend d k2 r) k = idxGet d k := by
  induction d with
  | nil => simp [idxAppend, idxGet, h]
  | cons p rest ih =>
    by_cases h1 : p.1 = k2
    · simp only [idxAppend, h1, if_true, idxGet]
      rw [if_neg h, if_neg h]
    · simp only [idxAppend, h1, if_false, idxGet]
      by_cases h2 : p.1 = k
      · simp [h2]
      · simp only [h2, if_false]
        exact ih

lemma mem_idxGet_idxAppend (d : Idx) (k k2 : List Char) (r r2 : LineRec)
    (h : r ∈ idxGet d k) : r ∈ idxGet (idxAppend d k2 r2) k := by
  by_cases hk : k2 = k
  · subst hk
    rw [idxGet_idxAppend_self]
    exact List.mem_append_left _ h
  · rw [idxGet_idxAppend_other d k k2 r2 hk]
    exact h

lemma fold_idxAppend_get_mono (subs : List (List Char)) (r0 : LineRec) :
    ∀ (d : Idx) (k : List Char) (r : LineRec), r ∈ idxGet d k →
      r ∈ idxGet (subs.foldl (fun dd sub => idxAppend dd sub r0) d) k := by
  induction subs with
  | nil => intro d k r h; exact h
  | cons s0 rest ih =>
    intro d k r h
    exact ih (idxAppend d s0 r0) k r (mem_idxGet_idxAppend d k s0 r r0 h)

lemma fold_idxAppend_mem_mono (subs : List (List Char)) (r0 : LineRec) :
    ∀ (d : Idx) (k : List Char), idxMem d k = true →
      idxMem (subs.foldl (fun dd sub => idxAppend dd sub r0) d) k = true := by
  induction subs with
  | nil => intro d k h; exact h
  | cons s0 rest ih =>
    intro d k h
    exact ih (idxAppend d s0 r0) k (idxMem_idxAppend_mono d k s0 r0 h)

lemma fold_idxAppend_target (subs : List (List Char)) (r0 : LineRec) :
    ∀ (d : Idx) (w : List Char), w ∈ subs →
      idxMem (subs.foldl (fun dd sub => idxAppend dd sub r0) d) w = true ∧
        r0 ∈ idxGet (subs.foldl (fun dd sub => idxAppend dd sub r0) d) w := by
  induction subs with
  | nil => intro d w hw; simp at hw
  | cons s0 rest ih =>
    intro d w hw
    rcases List.mem_cons.mp hw with rfl | hw2
    · constructor
      · exact fold_idxAppend_mem_mono rest r0 _ w (idxMem_idxAppend_self d w r0)
      · refine fold_idxAppend_get_mono rest r0 _ w r0 ?_
        rw [idxGet_idxAppend_self]
        exact List.mem_append_right _ (List.mem_singleton_self r0)
    · exact ih (idxAppend d s0 r0) w hw2

lemma mem_setAdd_self {α : Type} [DecidableEq α] (s : List α) (x : α) :
    x ∈ setAdd s x := by
  by_cases h : x ∈ s <;> simp [setAdd, h]

lemma mem_setAdd_mono {α : Type} [DecidableEq α] (s : List α) (x y : α)
    (h : x ∈ s) : x ∈ setAdd s y := by
  by_cases h2 : y ∈ s <;> simp [setAdd, h2, h]

lemma inner_fold_mono (w : List Char) (js : List Nat) :
    ∀ (s : List (List Char)) (x : List Char), x ∈ s →
      x ∈ js.foldl
        (fun s2 j => setAdd (setAdd s2 (w.take j)) (w.drop (w.length - j))) s := by
  induction js with
  | nil => intro s x h; exact h
  | cons j0 rest ih =>
    intro s x h
    exact ih _ x (mem_setAdd_mono _ x _ (mem_setAdd_mono _ x _ h))

lemma inner_fold_target (w : List Char) (js : List Nat) :
    ∀ (s : List (List Char)), w.length ∈ js →
      w ∈ js.foldl
        (fun s2 j => setAdd (setAdd s2 (w.take j)) (w.drop (w.length - j))) s := by
  induction js with
  | nil => intro s h; simp at h
  | cons j0 rest ih =>
    intro s h
    rcases List.mem_cons.mp h with hj | hj
    · subst hj
      simp only [List.foldl_cons]
      refine inner_fold_mono w rest _ w ?_
      show w ∈ setAdd (setAdd s (List.take w.length w))
        (List.drop (w.length - w.length) w)
      rw [Nat.sub_self, List.drop_zero]
      exact mem_setAdd_self _ w
    · exact ih _ hj

lemma outer_fold_mono (words : List (List Char)) :
    ∀ (s : List (List Char)) (x : List Char), x ∈ s →
      x ∈ words.foldl
        (fun s w =>
          (List.range' 2 (w.length - 1)).foldl
            (fun s2 j => setAdd (setAdd s2 (w.take j)) (w.drop (w.length - j)))
            s) s := by
  induction words with
  | nil => intro s x h; exact h
  | cons w0 rest ih =>
    intro s x h
    exact ih _ x (inner_fold_mono w0 _ s x h)

lemma mem_get_all_substrings (words : List (List Char)) (w : List Char)
    (hw : w ∈ words) (hl : 2 ≤ w.length) : w ∈ get_all_substrings words := by
  unfold get_all_substrings
  generalize hs : ([] : List (List Char)) = s
  clear hs
  induction words generalizing s with
  | nil => simp at hw
  | cons w0 rest ih =>
    rcases List.mem_cons.mp hw with rfl | hw2
    · refine outer_fold_mono rest _ w ?_
      refine inner_fold_target w (List.range' 2 (w.length - 1)) s ?_
      rw [List.mem_range'_1]
      omega
    · exact ih hw2 _

lemma split_ne_nil_of_mem (clean w : List Char)
    (hw : w ∈ pySplitWs clean) : clean.isEmpty = false := by
  cases hcl : clean with
  | nil =>
    rw [hcl] at hw
    simp [pySplitWs, runsAux] at hw
  | cons c cs => rfl

lemma processLine_target (fn l : List Char) (i : Nat) (d : Idx) (w : List Char)
    (hw : w ∈ pySplitWs (remove_punctuation (pyStrip l))) (hl : 2 ≤ w.length) :
    idxMem (processLine fn l i d) w = true ∧
      LineRec.mk l (i + 1) (pyFname fn) ∈ idxGet (processLine fn l i d) w := by
  have hclean := split_ne_nil_of_mem _ w hw
  have hsub : w ∈ get_all_substrings (pySplitWs (remove_punctuation (pyStrip l))) :=
    mem_get_all_substrings _ w hw hl
  unfold processLine
  simp only [hclean, Bool.false_eq_true, if_false]
  exact fold_idxAppend_target _ _ d w hsub

lemma processLine_keeps (fn l : List Char) (i : Nat) (d : Idx)
    (k : List Char) (r : LineRec) (hm : idxMem d k = true)
    (hg : r ∈ idxGet d k) :
    idxMem (processLine fn l i d) k = true ∧
      r ∈ idxGet (processLine fn l i d) k := by
  unfold processLine
  by_cases hc : (remove_punctuation (pyStrip l)).isEmpty = true
  · simp only [hc, if_true]
    exact ⟨hm, hg⟩
  · have hc2 : (remove_punctuation (pyStrip l)).isEmpty = false := by simpa using hc
    simp only [hc2, Bool.false_eq_true, if_false]
    exact ⟨fold_idxAppend_mem_mono _ _ d k hm, fold_idxAppend_get_mono _ _ d k r hg⟩

lemma processFrom_keeps (fn : List Char) :
    ∀ (lines : List (List Char)) (i0 : Nat) (d : Idx) (k : List Char)
      (r : LineRec), idxMem d k = true → r ∈ idxGet d k →
      idxMem (processFrom fn lines i0 d) k = true ∧
        r ∈ idxGet (processFrom fn lines i0 d) k := by
  intro lines
  induction lines with
  | nil => intro i0 d k r hm hg; exact ⟨hm, hg⟩
  | cons l rest ih =>
    intro i0 d k r hm hg
    have h1 := processLine_keeps fn l i0 d k r hm hg
    exact ih (i0 + 1) _ k r h1.1 h1.2

lemma c5_aux (fn : List Char) (w : List Char) (hl : 2 ≤ w.length) :
    ∀ (lines : List (List Char)) (i0 : Nat) (d : Idx) (i : Nat),
      i < lines.length →
      w ∈ pySplitWs (remove_punctuation (pyStrip (lines.getD i []))) →
      idxMem (processFrom fn lines i0 d) w = true ∧
        LineRec.mk (lines.getD i []) (i0 + i + 1) (pyFname fn) ∈
          idxGet (processFrom fn lines i0 d) w := by
  intro lines
  induction lines with
  | nil => intro i0 d i hi; simp at hi
  | cons l rest ih =>
    intro i0 d i hi hw
    cases i with
    | zero =>
      simp only [List.getD_cons_zero] at hw ⊢
      have h0 := processLine_target fn l i0 d w hw hl
      have h1 := processFrom_keeps fn rest (i0 + 1) (processLine fn l i0 d) w
        (LineRec.mk l (i0 + 1) (pyFname fn)) h0.1 h0.2
      simpa [processFrom] using h1
    | succ j =>
      simp only [List.getD_cons_succ] at hw ⊢
      have hj : j < rest.length := by simpa using hi
      have h1 := ih (i0 + 1) (processLine fn l i0 d) j hj hw
      have harith : i0 + 1 + j + 1 = i0 + (j + 1) + 1 := by omega
      rw [harith] at h1
      simpa [processFrom] using h1

/-- C5: every complete word of length at least 2 of a cleaned corpus line is a
key of the index built by process, and its entry contains the record of that
line (raw text, 1-based line number, source filename or "Unknown"). -/
theorem c5_word_is_key (d0 : Idx) (lines : List (List Char)) (fn : List Char)
    (i : Nat) (w : List Char) (hi : i < lines.length)
    (hw : w ∈ pySplitWs (remove_punctuation (pyStrip (lines.getD i []))))
    (hl : 2 ≤ w.length) :
    idxMem (process d0 lines fn) w = true ∧
      LineRec.mk (lines.getD i []) (i + 1) (pyFname fn) ∈
        idxGet (process d0 lines fn) w := by
  have h1 := c5_aux fn w hl lines 0 d0 i hi hw
  simpa [process] using h1

/-- Witness for C5 on the one-line corpus "ab". -/
theorem c5_word_is_key_witness :
    idxMem (process [] [chars ("ab")] (chars ("f"))) (chars ("ab")) = true ∧
      LineRec.mk ([chars ("ab")].getD 0 []) (0 + 1) (pyFname (chars ("f"))) ∈
        idxGet (process [] [chars ("ab")] (chars ("f"))) (chars ("ab")) :=
  c5_word_is_key [] [chars ("ab")] (chars ("f")) 0 (chars ("ab"))
    (by decide) (by decide) (by decide)

lemma mem_foldl_setAdd {α : Type} [DecidableEq α] (l : List α) :
    ∀ (s : List α) (x : α), x ∈ l.foldl setAdd s → x ∈ s ∨ x ∈ l := by
  induction l with
  | nil => intro s x h; exact Or.inl h
  | cons a rest ih =>
    intro s x h
    rcases ih (setAdd s a) x h with h2 | h2
    · by_cases ha : a ∈ s
      · simp only [setAdd, ha, if_true] at h2
        exact Or.inl h2
      · simp only [setAdd, ha, if_false, List.mem_append,
          List.mem_singleton] at h2
        rcases h2 with h3 | h3
        · exact Or.inl h3
        · exact Or.inr (by simp [h3])
    · exact Or.inr (List.mem_cons_of_mem a h2)

lemma mem_dedupL {α : Type} [DecidableEq α] (l : List α) (x : α)
    (h : x ∈ dedupL l) : x ∈ l := by
  rcases mem_foldl_setAdd l [] x h with h2 | h2
  · simp at h2
  · exact h2

lemma interStep_of_ne_nil (ht : Idx) (S : List LineRec) (w : List Char)
    (hS : S ≠ []) :
    interStep ht S w = S.filter (fun x => decide (x ∈ idxGet ht w)) := by
  have hlen : (S.length == 0) = false := by
    simp [List.length_eq_zero, hS]
  simp only [interStep, hlen, Bool.false_eq_true, if_false]

lemma interFold_mem (ht : Idx) :
    ∀ (ws : List (List Char)) (S : List LineRec) (r : LineRec),
      (∀ n, n ≤ ws.length → (ws.take n).foldl (interStep ht) S ≠ []) →
      r ∈ ws.foldl (interStep ht) S →
      r ∈ S ∧ ∀ w ∈ ws, r ∈ idxGet ht w := by
  intro ws
  induction ws with
  | nil =>
    intro S r _ hr
    exact ⟨hr, by simp⟩
  | cons w0 rest ih =>
    intro S r hne hr
    have hS : S ≠ [] := by simpa using hne 0 (by simp)
    rw [List.foldl_cons] at hr
    have hne2 : ∀ n, n ≤ rest.length →
        (rest.take n).foldl (interStep ht) (interStep ht S w0) ≠ [] := by
      intro n hn
      have h3 := hne (n + 1) (by simpa using Nat.succ_le_succ hn)
      simpa [List.take_succ_cons, List.foldl_cons] using h3
    have hmain := ih (interStep ht S w0) r hne2 hr
    rw [interStep_of_ne_nil ht S w0 hS] at hmain
    have hmem := List.mem_filter.mp hmain.1
    refine ⟨hmem.1, ?_⟩
    intro w hw
    rcases List.mem_cons.mp hw with rfl | hw2
    · exact of_decide_eq_true hmem.2
    · exact hmain.2 w hw2

lemma resolveLoop_ok (ht : Idx) :
    ∀ (ws : List (List Char)) (S : List LineRec) (cs0 : List (List Char))
      (L : List LineRec) (cs : List (List Char)),
      resolveLoop ht ws S cs0 = some (some (L, cs)) →
      ∃ rs, cs = cs0 ++ rs ∧ L = rs.foldl (interStep ht) S := by
  intro ws
  induction ws with
  | nil =>
    intro S cs0 L cs h
    simp only [resolveLoop, Option.some.injEq, Prod.mk.injEq] at h
    exact ⟨[], by simp [← h.2], by simp [← h.1]⟩
  | cons w0 rest ih =>
    intro S cs0 L cs h
    by_cases hm : idxMem ht w0 = true
    · simp only [resolveLoop, hm, if_true] at h
      obtain ⟨rs, h1, h2⟩ := ih _ _ _ _ h
      refine ⟨w0 :: rs, ?_, ?_⟩
      · rw [h1, List.append_assoc]
        rfl
      · rw [h2]
        rfl
    · have hm2 : idxMem ht w0 = false := by simpa using hm
      cases hg : get_best_completions ht w0 with
      | none =>
        simp only [resolveLoop, hm2, Bool.false_eq_true, if_false, hg] at h
        simp at h
      | some nw =>
        by_cases hnw : nw.isEmpty = true
        · simp only [resolveLoop, hm2, Bool.false_eq_true, if_false, hg, hnw,
            if_true] at h
          simp at h
        · have hnw2 : nw.isEmpty = false := by simpa using hnw
          simp only [resolveLoop, hm2, Bool.false_eq_true, if_false, hg, hnw2] at h
          obtain ⟨rs, h1, h2⟩ := ih _ _ _ _ h
          refine ⟨nw :: rs, ?_, ?_⟩
          · rw [h1, List.append_assoc]
            rfl
          · rw [h2]
            rfl

/-- C2 amended: the running candidate set intersects with each subsequent
resolved token's record list only while it is non-empty; whenever it becomes
empty it is re-initialized from the next token's record list.  Consequently,
provided every intermediate running set is non-empty, every pre-filter
candidate record is present in the index entry of every resolved token. -/
theorem c2_intersection_amended (ht : Idx) (ws : List (List Char))
    (L : List LineRec) (cs : List (List Char))
    (hloop : resolveLoop ht ws [] [] = some (some (L, cs)))
    (hne : ∀ n, n ≤ cs.length → 0 < n →
      (cs.take n).foldl (interStep ht) [] ≠ []) :
    ∀ r ∈ L, ∀ w ∈ cs, r ∈ idxGet ht w := by
  obtain ⟨rs, h1, h2⟩ := resolveLoop_ok ht ws [] [] L cs hloop
  simp only [List.nil_append] at h1
  subst h1
  cases cs with
  | nil =>
    intro r hr
    rw [h2] at hr
    simp at hr
  | cons c0 crest =>
    intro r hr w hw
    rw [h2, List.foldl_cons] at hr
    have hS0 : interStep ht [] c0 = dedupL (idxGet ht c0) := by
      simp [interStep]
    have hne2 : ∀ n, n ≤ crest.length →
        (crest.take n).foldl (interStep ht) (interStep ht [] c0) ≠ [] := by
      intro n hn
      have h3 := hne (n + 1) (by simpa using Nat.succ_le_succ hn)
        (Nat.succ_pos n)
      simpa [List.take_succ_cons, List.foldl_cons] using h3
    have hmain := interFold_mem ht crest (interStep ht [] c0) r hne2 hr
    rcases List.mem_cons.mp hw with rfl | hw2
    · have h4 := hmain.1
      rw [hS0] at h4
      exact mem_dedupL _ _ h4
    · exact hmain.2 w hw2

/-- Witness for the amended C2 on the one-line corpus "ab" and the resolved
token list ["ab"]. -/
theorem c2_intersection_amended_witness :
    LineRec.mk (chars ("ab")) 1 (chars ("f")) ∈ idxGet htW (chars ("ab")) :=
  c2_intersection_amended htW [chars ("ab")]
    [LineRec.mk (chars ("ab")) 1 (chars ("f"))] [chars ("ab")]
    (by decide) (by decide)
    (LineRec.mk (chars ("ab")) 1 (chars ("f"))) (by decide)
    (chars ("ab")) (by decide)

lemma seqRun_true : ∀ (us ls : List (List Char)), seqRun us ls = some true →
    us.length ≤ ls.length ∧ ∀ j, j < us.length →
      isSubstr (us.getD j []) (ls.getD j []) = true := by
  intro us
  induction us with
  | nil =>
    intro ls _
    exact ⟨Nat.zero_le _, by intro j hj; simp at hj⟩
  | cons u us2 ih =>
    intro ls h
    cases ls with
    | nil => simp [seqRun] at h
    | cons l ls2 =>
      by_cases hs : isSubstr u l = true
      · simp only [seqRun, hs, if_true] at h
        obtain ⟨h1, h2⟩ := ih ls2 h
        refine ⟨Nat.succ_le_succ h1, ?_⟩
        intro j hj
        cases j with
        | zero => simpa using hs
        | succ j2 => simpa using h2 j2 (Nat.lt_of_succ_lt_succ hj)
      · have hs2 : isSubstr u l = false := by simpa using hs
        simp [seqRun, hs2] at h

lemma cilAux_true : ∀ (lws uws : List (List Char)), cilAux uws lws = true →
    ∃ i, i + uws.length ≤ lws.length ∧ ∀ j, j < uws.length →
      isSubstr (uws.getD j []) (lws.getD (i + j) []) = true := by
  intro lws
  induction lws with
  | nil => intro uws h; simp [cilAux] at h
  | cons w rest ih =>
    intro uws h
    by_cases hh : isSubstr (uws.headD []) w = true
    · simp only [cilAux, hh, if_true] at h
      cases hsr : seqRun uws (w :: rest) with
      | some b =>
        rw [hsr] at h
        have hb : b = true := by simpa using h
        subst hb
        obtain ⟨h1, h2⟩ := seqRun_true uws (w :: rest) hsr
        refine ⟨0, by simpa using h1, ?_⟩
        intro j hj
        simpa using h2 j hj
      | none =>
        rw [hsr] at h
        have h2 : cilAux uws rest = true := by simpa using h
        obtain ⟨i, hi1, hi2⟩ := ih uws h2
        refine ⟨i + 1, by simp only [List.length_cons]; omega, ?_⟩
        intro j hj
        have h3 := hi2 j hj
        have harith : i + 1 + j = (i + j) + 1 := by omega
        rw [harith]
        simpa [List.getD_cons_succ] using h3
    · have hh2 : isSubstr (uws.headD []) w = false := by simpa using hh
      simp only [cilAux, hh2, Bool.false_eq_true, if_false] at h
      obtain ⟨i, hi1, hi2⟩ := ih uws h
      refine ⟨i + 1, by simp only [List.length_cons]; omega, ?_⟩
      intro j hj
      have h3 := hi2 j hj
      have harith : i + 1 + j = (i + j) + 1 := by omega
      rw [harith]
      simpa [List.getD_cons_succ] using h3

/-- C6: for a query of two or more tokens, every returned line contains a
contiguous run of its line tokens such that the j-th resolved query token is a
substring of the j-th line token of the run, in order (lines failing this
ordered-occurrence check are filtered out before sampling). -/
theorem c6_ordered_occurrence (ht : Idx)
    (sample : List LineRec → Nat → List LineRec)
    (hs : ∀ (l : List LineRec) (n : Nat) (x : LineRec), x ∈ sample l n → x ∈ l)
    (q : List Char) (k : Nat) (res : List ACData)
    (hres : get_best_k_completion ht sample q k = some res)
    (hlen : 2 ≤ (uwords q).length) (a : ACData) (ha : a ∈ res) :
    ∃ L cs, resolveLoop ht (uwords q) [] [] = some (some (L, cs)) ∧
      ∃ i, i + cs.length ≤ (uwords a.completed_sentence).length ∧
        ∀ j, j < cs.length →
          isSubstr (cs.getD j [])
            ((uwords a.completed_sentence).getD (i + j) []) = true := by
  cases hloop : resolveLoop ht (uwords q) [] [] with
  | none => simp [get_best_k_completion, hloop] at hres
  | some o =>
    cases o with
    | none =>
      simp only [get_best_k_completion, hloop, Option.some.injEq] at hres
      subst hres
      simp at ha
    | some p =>
      obtain ⟨L, cs⟩ := p
      simp only [get_best_k_completion, hloop, Option.some.injEq] at hres
      subst hres
      unfold create_auto_complete at ha
      obtain ⟨r, hr, ha2⟩ := List.mem_map.mp ha
      have hrf : r ∈ finalLines (uwords q) cs L := by
        by_cases hb : k < (finalLines (uwords q) cs L).length
        · rw [if_pos hb] at hr
          exact hs _ _ _ hr
        · rw [if_neg hb] at hr
          exact hr
      have h1lt : 1 < (uwords q).length := hlen
      unfold finalLines at hrf
      rw [if_pos h1lt] at hrf
      have hfil := List.mem_filter.mp hrf
      obtain ⟨i, hi1, hi2⟩ := cilAux_true (uwords r.text) cs hfil.2
      refine ⟨L, cs, rfl, i, ?_, ?_⟩
      · rw [← ha2]
        exact hi1
      · rw [← ha2]
        exact hi2

/-- Witness for C6 on the one-line corpus "ab cd" and the query "ab cd". -/
theorem c6_ordered_occurrence_witness :
    ∃ L cs,
      resolveLoop htW2 (uwords (chars ("ab cd"))) [] [] =
        some (some (L, cs)) ∧
      ∃ i, i + cs.length ≤ (uwords (chars ("ab cd"))).length ∧
        ∀ j, j < cs.length →
          isSubstr (cs.getD j [])
            ((uwords (chars ("ab cd"))).getD (i + j) []) = true :=
  c6_ordered_occurrence htW2 takeSample
    (fun l n x hx => List.mem_of_mem_take hx) (chars ("ab cd")) 5
    [ACData.mk (chars ("ab cd")) (chars ("f")) 1 0] (by decide) (by decide)
    (ACData.mk (chars ("ab cd")) (chars ("f")) 1 0) (by decide)

/-- C7: the returned list never exceeds k elements; it has exactly the
intersection-and-filter count when that count is at most k, and exactly k
elements otherwise. -/
theorem c7_cardinality (ht : Idx) (sample : List LineRec → Nat → List LineRec)
    (q : List Char) (k : Nat) (res : List ACData)
    (hs : ∀ (l : List LineRec) (n : Nat), n ≤ l.length →
      (sample l n).length = n)
    (_hk : 0 < k)
    (hres : get_best_k_completion ht sample q k = some res) :
    res.length ≤ k ∧
      ∀ L cs, resolveLoop ht (uwords q) [] [] = some (some (L, cs)) →
        res.length = min (finalLines (uwords q) cs L).length k := by
  have hclen : ∀ sel : List LineRec,
      (create_auto_complete sel).length = sel.length := fun sel =>
    List.length_map _ _
  cases hloop : resolveLoop ht (uwords q) [] [] with
  | none => simp [get_best_k_completion, hloop] at hres
  | some o =>
    cases o with
    | none =>
      simp only [get_best_k_completion, hloop, Option.some.injEq] at hres
      subst hres
      refine ⟨by simp, ?_⟩
      intro L cs heq
      simp at heq
    | some p =>
      obtain ⟨L0, cs0⟩ := p
      simp only [get_best_k_completion, hloop, Option.some.injEq] at hres
      subst hres
      constructor
      · by_cases hb : k < (finalLines (uwords q) cs0 L0).length
        · rw [hclen, if_pos hb, hs _ k (Nat.le_of_lt hb)]
        · rw [hclen, if_neg hb]
          exact Nat.le_of_not_lt hb
      · intro L cs heq
        simp only [Option.some.injEq, Prod.mk.injEq] at heq
        obtain ⟨h1, h2⟩ := heq
        subst h1
        subst h2
        by_cases hb : k < (finalLines (uwords q) cs0 L0).length
        · rw [hclen, if_pos hb, hs _ k (Nat.le_of_lt hb)]
          exact (Nat.min_eq_right (Nat.le_of_lt hb)).symm
        · rw [hclen, if_neg hb]
          exact (Nat.min_eq_left (Nat.le_of_not_lt hb)).symm

/-- Witness for C7 on the one-line corpus "ab", query "ab", limit 1. -/
theorem c7_cardinality_witness :
    ([ACData.mk (chars ("ab")) (chars ("f")) 1 0] : List ACData).length ≤ 1 ∧
      ∀ L cs,
        resolveLoop htW (uwords (chars ("ab"))) [] [] = some (some (L, cs)) →
        ([ACData.mk (chars ("ab")) (chars ("f")) 1 0] : List ACData).length =
          min (finalLines (uwords (chars ("ab"))) cs L).length 1 :=
  c7_cardinality htW takeSample (chars ("ab")) 1
    [ACData.mk (chars ("ab")) (chars ("f")) 1 0]
    (fun l n h => by
      simp only [takeSample, List.length_take]
      exact Nat.min_eq_left h)
    (by decide) (by decide)
